import Mathlib

/-!
Verification of the flattened cubic-Bézier path core of
`src/manim/mobject/types/vectorized_mobject.py` (class `VMobject` and
`DashedVMobject`).

The embedding is a shallow one: the flat `points` buffer is a `List Pt`
with `Pt := ℚ × ℚ × ℚ` (the source's float coordinates are modelled by
exact rationals; every arithmetic operation of the translated code is
`+ - * /`, floor and comparison, all exact on `ℚ`).  Methods that mutate
`self.points` become functions from the old buffer to the new one;
methods that can raise become `Option`/`Except` values.  The two
genuinely irrational ingredients of the source — `np.linalg.norm` inside
the arc-length sampling, and the numeric root finding of
`proportions_along_bezier_curve_for_point` — are taken as explicit
function parameters (`norm`, `findT`), so every theorem below holds for
every choice of those numerics; helpers of the library that live outside
the provided sources (`manim.utils.bezier`) are modelled from the spec
and are marked as such in their doc comments.

`n_points_per_cubic_curve` is instantiated with its default value 4
throughout, exactly as the claims under scrutiny phrase it.
-/

namespace ManimVMobject

/-- A 3D coordinate of the `points` buffer. -/
abbrev Pt : Type := ℚ × ℚ × ℚ

/-- Modelled from the spec: `interpolate(start, end, alpha)` of
`manim.utils.bezier` (outside `src/`) is the affine combination
`(1 - alpha) * start + alpha * end`, componentwise on 3D points. -/
def interpolate (p q : Pt) (t : ℚ) : Pt :=
  (1 - t) • p + t • q

/-- Absolute tolerance of `consider_points_equals`:
`tolerance_for_point_equality = 1e-6`. -/
def atolQ : ℚ := 1 / 1000000

/-- Relative tolerance used by `np.allclose` (its default `rtol = 1e-5`). -/
def rtolQ : ℚ := 1 / 100000

/-- One coordinate of `np.allclose(a, b, atol=1e-6)`:
`|a - b| <= atol + rtol * |b|`. -/
def iscloseQ (a b : ℚ) : Bool :=
  |a - b| ≤ atolQ + rtolQ * |b|

/-- `VMobject.consider_points_equals(p0, p1)`:
`np.allclose(p0, p1, atol=self.tolerance_for_point_equality)`. -/
def consider_points_equals (p q : Pt) : Bool :=
  iscloseQ p.1 q.1 && iscloseQ p.2.1 q.2.1 && iscloseQ p.2.2 q.2.2

/-- The slice `l[i:j]` of a Python list (start and stop both clamped). -/
def sliceL (l : List Pt) (i j : ℕ) : List Pt :=
  (l.drop i).take (j - i)

/-- `VMobject.get_start_anchors`: the slice `points[::4]`
(every fourth element, starting at index 0). -/
def get_start_anchors (pts : List Pt) : List Pt :=
  (List.range ((pts.length + 3) / 4)).map (fun i => pts.getD (4 * i) default)

/-- `VMobject.has_new_path_started`: `len(points) % 4 == 1`. -/
def has_new_path_started (pts : List Pt) : Bool :=
  pts.length % 4 = 1

/-- `VMobject.get_last_point`: `points[-1]`. -/
def get_last_point (pts : List Pt) : Pt :=
  pts.getLastD default

/-- `VMobject.start_new_path(point)`: when the buffer length is not a
multiple of 4, first append `get_start_anchors()[-1]` as many times as
needed to reach the next multiple of 4, then append `point`. -/
def start_new_path (pts : List Pt) (p : Pt) : List Pt :=
  if pts.length % 4 ≠ 0 then
    pts ++ List.replicate (4 - pts.length % 4) ((get_start_anchors pts).getLastD default) ++ [p]
  else
    pts ++ [p]

/-- `VMobject.add_cubic_bezier_curve_to(handle1, handle2, anchor)`:
fails (`throw_error_if_no_points`) on an empty buffer; appends three
points when a new path has started, otherwise the current last point
followed by the three. -/
def add_cubic_bezier_curve_to (pts : List Pt) (h1 h2 anchor : Pt) : Option (List Pt) :=
  if pts = [] then none
  else if has_new_path_started pts then some (pts ++ [h1, h2, anchor])
  else some (pts ++ [get_last_point pts, h1, h2, anchor])

/-- `VMobject._bezier_t_values`: `np.linspace(0, 1, 4)`. -/
def bezier_t_values : List ℚ := [0, 1 / 3, 2 / 3, 1]

/-- `VMobject.add_line_to(point)`: a cubic curve through
`interpolate(last, point, t)` for `t` in `_bezier_t_values[1:]`. -/
def add_line_to (pts : List Pt) (p : Pt) : Option (List Pt) :=
  add_cubic_bezier_curve_to pts
    (interpolate (get_last_point pts) p (1 / 3))
    (interpolate (get_last_point pts) p (2 / 3))
    (interpolate (get_last_point pts) p 1)

/-- `VMobject.add_points_as_corners(points)`: fails on an empty buffer;
with no input points returns the buffer unchanged; otherwise drops a
pending new-path marker and appends, for every consecutive corner pair,
the four points `interpolate(start, end, t)` with `t` ranging over
`_bezier_t_values`. -/
def add_points_as_corners (pts : List Pt) (ps : List Pt) : Option (List Pt) :=
  if pts = [] then none
  else if ps.length = 0 then some pts
  else
    let startCorners := get_last_point pts :: ps.dropLast
    let base := if has_new_path_started pts then pts.dropLast else pts
    some (base ++ (startCorners.zip ps).flatMap
      (fun se => bezier_t_values.map (fun t => interpolate se.1 se.2 t)))

/-- `VMobject.get_num_curves`: `len(points) // 4`. -/
def get_num_curves (pts : List Pt) : ℕ :=
  pts.length / 4

/-- The split positions of `VMobject._gen_subpaths_from_points`:
`[0] + list(filter(filter_func, range(4, len(points), 4))) + [len(points)]`. -/
def subpath_split_indices (filt : ℕ → Bool) (pts : List Pt) : List ℕ :=
  0 :: ((List.range' 4 ((pts.length - 1) / 4) 4).filter filt ++ [pts.length])

/-- `VMobject._gen_subpaths_from_points(points, filter_func)`: the slices
between consecutive split positions, kept when they span at least 4
entries. -/
def gen_subpaths_from_points (filt : ℕ → Bool) (pts : List Pt) : List (List Pt) :=
  let si := subpath_split_indices filt pts
  (si.zip si.tail).filterMap
    (fun ii => if 4 ≤ ii.2 - ii.1 then some (sliceL pts ii.1 ii.2) else none)

/-- `VMobject.get_subpaths_from_points(points)`: the subpaths with the
filter `lambda n: not consider_points_equals(points[n - 1], points[n])`. -/
def get_subpaths_from_points (pts : List Pt) : List (List Pt) :=
  gen_subpaths_from_points
    (fun n => ! consider_points_equals (pts.getD (n - 1) default) (pts.getD n default)) pts

/-- `VMobject.get_subpaths()`: `get_subpaths_from_points(self.points)`. -/
def get_subpaths (pts : List Pt) : List (List Pt) :=
  get_subpaths_from_points pts

/-- `VMobject.get_nth_curve_points(n)`: the slice `points[4n : 4(n+1)]`. -/
def get_nth_curve_points (pts : List Pt) (n : ℕ) : List Pt :=
  sliceL pts (4 * n) (4 * (n + 1))

/-- Modelled from the spec: `bezier` of `manim.utils.bezier` (outside
`src/`) applied to four control points is the standard cubic Bézier
evaluation (`curveAt(points4, t)`, spec section 4.1). -/
def bezier (c : List Pt) (t : ℚ) : Pt :=
  ((1 - t) ^ 3 • c.getD 0 default) + ((3 * (1 - t) ^ 2 * t) • c.getD 1 default) +
    ((3 * (1 - t) * t ^ 2) • c.getD 2 default) + (t ^ 3 • c.getD 3 default)

/-- `VMobject.get_nth_curve_length_pieces(n)` with the default
`sample_points = 10`: evaluate the nth curve at `np.linspace(0, 1, 10)`,
take consecutive differences and their Euclidean norms.  The norm
(`np.linalg.norm`, a floating-point square root) is irrational and is
abstracted as the explicit parameter `norm`; every theorem below holds
for every choice of it. -/
def get_nth_curve_length_pieces (norm : Pt → ℚ) (pts : List Pt) (n : ℕ) : List ℚ :=
  (List.range 9).map (fun (i : ℕ) =>
    norm (bezier (get_nth_curve_points pts n) (((i : ℚ) + 1) / 9) -
      bezier (get_nth_curve_points pts n) ((i : ℚ) / 9)))

/-- `VMobject.get_nth_curve_length(n)`: `np.sum` of the length pieces. -/
def get_nth_curve_length (norm : Pt → ℚ) (pts : List Pt) (n : ℕ) : ℚ :=
  (get_nth_curve_length_pieces norm pts n).sum

/-- `VMobject.get_curve_functions_with_lengths()`: every curve paired
with its approximate length (a curve is kept as its four control points
where the source keeps the evaluation closure `bezier(points4)`). -/
def get_curve_functions_with_lengths (norm : Pt → ℚ) (pts : List Pt) : List (List Pt × ℚ) :=
  (List.range (get_num_curves pts)).map
    (fun n => (get_nth_curve_points pts n, get_nth_curve_length norm pts n))

/-- `VMobject.get_arc_length()`: the sum of the per-curve approximate
lengths. -/
def get_arc_length (norm : Pt → ℚ) (pts : List Pt) : ℚ :=
  ((get_curve_functions_with_lengths norm pts).map (fun cl => cl.2)).sum

/-- The failure outcomes of the proportion queries of `VMobject`. -/
inductive PathErr where
  | alphaOutOfRange : PathErr
  | noPoints : PathErr
  | internalLoopEnd : PathErr
  | pointNotOnPath : PathErr
deriving DecidableEq

/-- The scanning loop of `point_from_proportion`: walk the curves in
order; at the first curve whose cumulative length reaches the target,
evaluate it at the residual proportion (residue 0 for a zero-length
curve).  Falling off the end is the source's trailing unreachable
`raise Exception` branch. -/
def point_from_proportion_loop :
    List (List Pt × ℚ) → ℚ → ℚ → Except PathErr Pt
  | [], _, _ => .error .internalLoopEnd
  | (c, len) :: rest, currentLength, targetLength =>
    if currentLength + len ≥ targetLength then
      .ok (bezier c (if len ≠ 0 then (targetLength - currentLength) / len else 0))
    else
      point_from_proportion_loop rest (currentLength + len) targetLength

/-- `VMobject.point_from_proportion(alpha)`: raise on `alpha` outside
`[0, 1]`, raise on an empty buffer (`throw_error_if_no_points`), return
`points[-1]` exactly when `alpha == 1`, otherwise walk the curves
accumulating approximate lengths.  The method is a pure query — the
source contains no assignment to `self.points` — so the embedding maps
the old buffer to a value only. -/
def point_from_proportion (norm : Pt → ℚ) (pts : List Pt) (α : ℚ) : Except PathErr Pt :=
  if α < 0 ∨ α > 1 then .error .alphaOutOfRange
  else if pts = [] then .error .noPoints
  else if α = 1 then .ok (pts.getLastD default)
  else
    let cl := get_curve_functions_with_lengths norm pts
    point_from_proportion_loop cl 0 (α * (cl.map (fun x => x.2)).sum)

/-- Python's built-in `max` over a list; the source applies it to a
non-empty list of roots. -/
def listMax (l : List ℚ) : ℚ := l.foldl max (l.headD 0)

/-- The scanning loop of `proportion_from_point`: accumulate the length
of every curve that does not contain the point; at the first curve with
a non-empty root list add `length * max(roots)` and stop.  `none` is the
source's for-else `raise ValueError` ("point not on curve"). -/
def proportion_from_point_loop (findT : List Pt → Pt → List ℚ) (q : Pt) :
    List (List Pt × ℚ) → ℚ → Option ℚ
  | [], _ => none
  | (c, len) :: rest, targetLength =>
    if findT c q ≠ [] then some (targetLength + len * listMax (findT c q))
    else proportion_from_point_loop findT q rest (targetLength + len)

/-- `VMobject.proportion_from_point(point)`: raise on an empty buffer,
scan the curves in index order, and divide the accumulated target length
by the total arc length.  `findT` models
`proportions_along_bezier_curve_for_point` of `manim.utils.bezier`
(outside `src/`), modelled from the spec: `findTForPoint(points4, point)`
is a numeric root-finder returning a possibly empty candidate list. -/
def proportion_from_point (norm : Pt → ℚ) (findT : List Pt → Pt → List ℚ)
    (pts : List Pt) (q : Pt) : Except PathErr ℚ :=
  if pts = [] then .error .noPoints
  else
    match proportion_from_point_loop findT q (get_curve_functions_with_lengths norm pts) 0 with
    | none => .error .pointNotOnPath
    | some targetLength => .ok (targetLength / get_arc_length norm pts)

/-- Modelled from the spec: `integerInterpolate(0, numCurves, x)` of
`manim.utils.bezier` (outside `src/`) returns `(index, residue)` with
`index + residue == x * numCurves` and `index` clamped to the valid
index range (residue 1 at the top end, 0 at the bottom). -/
def integer_interpolate (m : ℕ) (α : ℚ) : ℕ × ℚ :=
  if 1 ≤ α then (m - 1, 1)
  else if α ≤ 0 then (0, 0)
  else ((⌊α * m⌋).toNat, α * m - ⌊α * m⌋)

/-- Modelled from the spec: one de Casteljau split of a cubic at `t`,
giving the control points of the two halves. -/
def de_casteljau_split (c : List Pt) (t : ℚ) : List Pt × List Pt :=
  let p0 := c.getD 0 default
  let p1 := c.getD 1 default
  let p2 := c.getD 2 default
  let p3 := c.getD 3 default
  let q0 := interpolate p0 p1 t
  let q1 := interpolate p1 p2 t
  let q2 := interpolate p2 p3 t
  let r0 := interpolate q0 q1 t
  let r1 := interpolate q1 q2 t
  let s := interpolate r0 r1 t
  ([p0, q0, r0, s], [s, r1, q2, p3])

/-- Modelled from the spec: `partialCurve(points4, a, b)`
(`partial_bezier_points` of `manim.utils.bezier`, outside `src/`): the
control points of the sub-curve on the parameter window `[a, b]`, by
repeated de Casteljau splitting; four copies of the end anchor when
`a == 1`. -/
def partial_bezier_points (c : List Pt) (a b : ℚ) : List Pt :=
  if a = 1 then List.replicate 4 (c.getD 3 default)
  else
    (de_casteljau_split ((de_casteljau_split c a).2) ((b - a) / (1 - a))).1

/-- `VMobject.pointwise_become_partial(vmobject, a, b)`: the new value of
`self.points` as a function of the source buffer (the name carries a
`_points` suffix).  `a <= 0 and b >= 1` copies the source wholesale; a
zero-curve source leaves `self.points` unchanged; otherwise the window
`[a, b]` is mapped to curve indices and residues by
`integer_interpolate` and the result is assembled from a clipped first
curve, verbatim middle curves and a clipped last curve (a single clipped
curve when both indices coincide). -/
def pointwise_become_partial_points (selfPts srcPts : List Pt) (a b : ℚ) : List Pt :=
  if a ≤ 0 ∧ b ≥ 1 then srcPts
  else if get_num_curves srcPts = 0 then selfPts
  else
    let lw := integer_interpolate (get_num_curves srcPts) a
    let up := integer_interpolate (get_num_curves srcPts) b
    if lw.1 = up.1 then
      partial_bezier_points (sliceL srcPts (4 * lw.1) (4 * (lw.1 + 1))) lw.2 up.2
    else
      partial_bezier_points (sliceL srcPts (4 * lw.1) (4 * (lw.1 + 1))) lw.2 1 ++
        sliceL srcPts (4 * (lw.1 + 1)) (4 * up.1) ++
        partial_bezier_points (sliceL srcPts (4 * up.1) (4 * (up.1 + 1))) 0 up.2

/-- `VMobject.get_cubic_bezier_tuples_from_points(points)`: drop the
remainder past the last multiple of 4, then regroup every 4 elements. -/
def get_cubic_bezier_tuples_from_points (pts : List Pt) : List (List Pt) :=
  (List.range (pts.length / 4)).map (fun i => sliceL pts (4 * i) (4 * (i + 1)))

/-- Modelled from the spec: `subdivide_bezier` (outside `src/`) splits
one curve into `f` sub-curves covering equal parameter windows
(`partialCurve` on `[j/f, (j+1)/f]`, repeated bisection). -/
def subdivide_bezier (c : List Pt) (f : ℕ) : List (List Pt) :=
  (List.range f).map
    (fun (j : ℕ) => partial_bezier_points c ((j : ℚ) / (f : ℚ)) (((j : ℚ) + 1) / (f : ℚ)))

/-- Modelled from the spec: `bezier_remap(tuples, m)` (outside `src/`)
splits the existing curves so that exactly `m` curves result, with the
splits distributed as evenly as possible: curve `i` of `k` is subdivided
into `(i+1)*m/k - i*m/k` sub-curves (with no curves to split, nothing
can be produced). -/
def bezier_remap (tuples : List (List Pt)) (m : ℕ) : List (List Pt) :=
  if tuples.length = 0 then []
  else (List.range tuples.length).flatMap
    (fun i => subdivide_bezier (tuples.getD i [])
      ((i + 1) * m / tuples.length - i * m / tuples.length))

/-- `VMobject.insert_n_curves_to_point_list(n, points)`: a single point
is repeated `4n` times (`np.repeat(points, nppcc * n, 0)`); otherwise
the bezier tuples are remapped to `current + n` curves and flattened
back to a point list (`reshape(-1, 3)`). -/
def insert_n_curves_to_point_list (n : ℕ) (pts : List Pt) : List Pt :=
  if pts.length = 1 then List.replicate (4 * n) (pts.getD 0 default)
  else
    (bezier_remap (get_cubic_bezier_tuples_from_points pts)
      ((get_cubic_bezier_tuples_from_points pts).length + n)).flatten

/-- `VMobject.insert_n_curves(n)`: remember a pending new-path marker,
rebuild the point list with `insert_n_curves_to_point_list`, and
re-append the marker. -/
def insert_n_curves (pts : List Pt) (n : ℕ) : List Pt :=
  let newPts := insert_n_curves_to_point_list n pts
  if has_new_path_started pts then newPts ++ [get_last_point pts] else newPts

/-- Python's `%` with a positive modulus on exact numbers:
`x - y * floor(x / y)`. -/
def qmod (x y : ℚ) : ℚ := x - y * ⌊x / y⌋

/-- `VMobject.is_closed()`:
`consider_points_equals(points[0], points[-1])` (the source indexes a
non-empty buffer). -/
def is_closed (pts : List Pt) : Bool :=
  consider_points_equals (pts.headD default) (pts.getLastD default)

/-- The open-path boundary correction of `DashedVMobject.__init__`: pop
the last dash when it lies entirely past the end; when its end wrapped
below `dash_len`, either split it (tail clipped to 1 plus a new dash at
proportion 0) if its start is still in range, or move its start to 0;
when only its start is within a dash length of the end, clip its end
to 1. -/
def open_dash_correction (dashLen : ℚ) (ds de : List ℚ) : List ℚ × List ℚ :=
  if 1 < de.getLastD 0 ∧ 1 < ds.getLastD 0 then (ds.dropLast, de.dropLast)
  else if de.getLastD 0 < dashLen then
    if ds.getLastD 0 < 1 then (ds ++ [0], de.dropLast ++ [1, de.getLastD 0])
    else (ds.dropLast ++ [0], de)
  else if 1 - dashLen < ds.getLastD 0 then (ds, de.dropLast ++ [1])
  else (ds, de)

/-- The dash windows built by `DashedVMobject.__init__` for `n > 0`
dashes of ratio `r` and offset `off` over a source whose closedness is
`closed`: the lists `dash_starts` and `dash_ends` after the open-path
boundary correction.  One sub-path (`get_subcurve` child) is added per
entry, under both settings of `equal_lengths`. -/
def dashed_vmobject_windows (closed : Bool) (n : ℕ) (r off : ℚ) : List ℚ × List ℚ :=
  let dashLen := r / (n : ℚ)
  let voidLen := if closed then (1 - r) / (n : ℚ)
    else if n = 1 then 1 - r else (1 - r) / ((n : ℚ) - 1)
  let period := dashLen + voidLen
  let phaseShift := qmod off 1 * period
  let patternLen : ℚ := if closed then 1 else 1 + voidLen
  let ds := (List.range n).map (fun (i : ℕ) => qmod ((i : ℚ) * period + phaseShift) patternLen)
  let de := (List.range n).map
    (fun (i : ℕ) => qmod ((i : ℚ) * period + dashLen + phaseShift) patternLen)
  if closed then (ds, de)
  else open_dash_correction dashLen ds de

/-- The number of dash sub-paths `DashedVMobject.__init__` adds for a
source with buffer `pts`: one per corrected dash window when `n > 0`,
none otherwise. -/
def dashed_vmobject_dash_count (pts : List Pt) (n : ℕ) (r off : ℚ) : ℕ :=
  if n = 0 then 0
  else (dashed_vmobject_windows (is_closed pts) n r off).1.length

/-- `Mobject.get_num_points()` (base class, outside `src/`): the number
of buffer entries, `len(self.points)`. -/
def get_num_points (pts : List Pt) : ℕ := pts.length

/-- The per-mobject fix-ups at the top of `align_points`: an empty
buffer first becomes a single point via `start_new_path(get_center())`
(`get_center` lives outside `src/` and enters as the parameter
`center`), and then a pending new-path marker is turned into a null
curve via `add_line_to(get_last_point())`. -/
def align_points_fixup (pts : List Pt) (center : Pt) : List Pt :=
  let p1 := if pts = [] then start_new_path pts center else pts
  if has_new_path_started p1 then (add_line_to p1 (get_last_point p1)).getD p1 else p1

/-- The trailing-duplicate trimming inside `align_points.get_nth_subpath`:
while the subpath is longer than 4 points and its last 4 points are all
tolerance-equal to the point preceding them (`consider_points_equals`
broadcast over `path[-4:]` against `path[-5]`), drop those 4 points. -/
def trim_useless_tail (path : List Pt) : List Pt :=
  if h : 4 < path.length ∧
      (path.drop (path.length - 4)).all
        (fun p => consider_points_equals p (path.getD (path.length - 5) default)) then
    trim_useless_tail (path.take (path.length - 4))
  else path
termination_by path.length
decreasing_by
  simp only [List.length_take]
  omega

/-- `align_points.get_nth_subpath(path_list, n)`: past the end of the
list, a null path of four copies of the very last point
(`path_list[-1][-1]`); otherwise the nth subpath with useless trailing
points removed. -/
def get_nth_subpath (spl : List (List Pt)) (n : ℕ) : List Pt :=
  if spl.length ≤ n then List.replicate 4 ((spl.getLastD []).getLastD default)
  else trim_useless_tail (spl.getD n [])

/-- `VMobject.align_points(vmobject)`: the effect on the two point
buffers (`align_rgbas` touches only the style arrays, never `points`).
With equal point counts the method returns before touching any point;
otherwise both buffers are fixed up, their subpaths are paired (the
`diff` values are Python's `max(0, (len2 - len1) // 4)`, which equals
truncated natural subtraction followed by division), each pair is padded
to a common curve count with `insert_n_curves_to_point_list`, and the
concatenations replace the old buffers via `set_points`.  The two
`get_center()` values enter as parameters. -/
def align_points (pts1 pts2 : List Pt) (center1 center2 : Pt) : List Pt × List Pt :=
  if get_num_points pts1 = get_num_points pts2 then (pts1, pts2)
  else
    let q1 := align_points_fixup pts1 center1
    let q2 := align_points_fixup pts2 center2
    let subpaths1 := get_subpaths q1
    let subpaths2 := get_subpaths q2
    let nSubpaths := max subpaths1.length subpaths2.length
    ((List.range nSubpaths).flatMap (fun n =>
        insert_n_curves_to_point_list
          (((get_nth_subpath subpaths2 n).length - (get_nth_subpath subpaths1 n).length) / 4)
          (get_nth_subpath subpaths1 n)),
     (List.range nSubpaths).flatMap (fun n =>
        insert_n_curves_to_point_list
          (((get_nth_subpath subpaths1 n).length - (get_nth_subpath subpaths2 n).length) / 4)
          (get_nth_subpath subpaths2 n)))

/-- A concrete open two-point buffer. -/
def openSeg : List Pt := [((0 : ℚ), (0 : ℚ), (0 : ℚ)), ((7 : ℚ), (0 : ℚ), (0 : ℚ))]

/-- A concrete closed one-curve buffer (first point equals last point). -/
def closedCurve : List Pt :=
  [((0 : ℚ), (0 : ℚ), (0 : ℚ)), ((1 : ℚ), (0 : ℚ), (0 : ℚ)),
   ((2 : ℚ), (0 : ℚ), (0 : ℚ)), ((0 : ℚ), (0 : ℚ), (0 : ℚ))]

/-- A concrete buffer for claim C9: one full curve from `(0,0,0)` to
`(3,0,0)` followed by a dangling two-point fragment starting at the
anchor `(3,0,0)` — a single connected subpath that starts at `(0,0,0)`. -/
def c9pts : List Pt :=
  [((0 : ℚ), (0 : ℚ), (0 : ℚ)), ((1 : ℚ), (0 : ℚ), (0 : ℚ)), ((2 : ℚ), (0 : ℚ), (0 : ℚ)),
   ((3 : ℚ), (0 : ℚ), (0 : ℚ)), ((3 : ℚ), (0 : ℚ), (0 : ℚ)), ((4 : ℚ), (0 : ℚ), (0 : ℚ))]

/-- The point passed to `start_new_path` in the C9 counterexample. -/
def c9p : Pt := ((5 : ℚ), (0 : ℚ), (0 : ℚ))

/-- A concrete one-curve buffer: the degenerate cubic through
`(0,0,0), (1,0,0), (2,0,0), (3,0,0)`. -/
def curve0123 : List Pt :=
  [((0 : ℚ), (0 : ℚ), (0 : ℚ)), ((1 : ℚ), (0 : ℚ), (0 : ℚ)),
   ((2 : ℚ), (0 : ℚ), (0 : ℚ)), ((3 : ℚ), (0 : ℚ), (0 : ℚ))]

attribute [local semireducible] Rat.add Rat.mul Rat.sub Rat.inv

section LengthInvariant

/-- Lengths of the building blocks of `start_new_path`. -/
theorem start_new_path_length (pts : List Pt) (p : Pt) :
    (start_new_path pts p).length =
      if pts.length % 4 ≠ 0 then pts.length + (4 - pts.length % 4) + 1
      else pts.length + 1 := by
  unfold start_new_path
  split
  · simp [List.length_append, List.length_replicate]
    omega
  · simp

theorem start_new_path_mod (pts : List Pt) (p : Pt) :
    (start_new_path pts p).length % 4 = 1 := by
  rw [start_new_path_length]
  split
  · omega
  · omega

theorem add_cubic_length (pts : List Pt) (h1 h2 a : Pt) (r : List Pt)
    (h : add_cubic_bezier_curve_to pts h1 h2 a = some r) :
    r.length = if pts.length % 4 = 1 then pts.length + 3 else pts.length + 4 := by
  unfold add_cubic_bezier_curve_to at h
  by_cases he : pts = []
  · simp [he] at h
  · simp only [he, if_false] at h
    by_cases hn : has_new_path_started pts
    · have hn' : pts.length % 4 = 1 := by
        simpa [has_new_path_started] using hn
      simp only [hn, if_true] at h
      cases h
      simp [hn']
    · have hn' : ¬ pts.length % 4 = 1 := by
        simpa [has_new_path_started] using hn
      simp only [hn, if_false] at h
      cases h
      simp [hn']

theorem add_points_as_corners_length (pts ps : List Pt) (r : List Pt)
    (hps : ps ≠ []) (h : add_points_as_corners pts ps = some r) :
    r.length = (if pts.length % 4 = 1 then pts.length - 1 else pts.length) + 4 * ps.length := by
  unfold add_points_as_corners at h
  by_cases he : pts = []
  · simp [he] at h
  · have hl : ¬ ps.length = 0 := by simpa using hps
    simp only [he, if_false, hl] at h
    cases h
    have hzip : ((get_last_point pts :: ps.dropLast).zip ps).length = ps.length := by
      simp [List.length_zip, List.length_dropLast]
      omega
    have hflat :
        (((get_last_point pts :: ps.dropLast).zip ps).flatMap
          (fun se => bezier_t_values.map (fun t => interpolate se.1 se.2 t))).length
          = 4 * ps.length := by
      rw [List.length_flatMap]
      have h4 : bezier_t_values.length = 4 := rfl
      simp only [Function.comp_def, List.length_map, h4, List.map_const', List.sum_replicate,
        smul_eq_mul, hzip]
      omega
    by_cases hn : has_new_path_started pts
    · have hn' : pts.length % 4 = 1 := by simpa [has_new_path_started] using hn
      simp [hn, hflat, hn', List.length_dropLast]
    · have hn' : ¬ pts.length % 4 = 1 := by simpa [has_new_path_started] using hn
      simp [hn, hflat, hn']

/-- The last entry of `points[::4]` on a buffer whose length is not a
multiple of 4 is `points[4 * (len // 4)]`, the start anchor of the
trailing (incomplete) curve. -/
theorem get_start_anchors_getLastD (pts : List Pt) (h : pts.length % 4 ≠ 0) :
    (get_start_anchors pts).getLastD default = pts.getD (4 * (pts.length / 4)) default := by
  unfold get_start_anchors
  have hlen : pts.length ≥ 1 := by omega
  have hk : (pts.length + 3) / 4 = pts.length / 4 + 1 := by omega
  rw [hk]
  rw [List.getLastD_eq_getLast?, List.getLast?_eq_getElem?]
  simp [List.getElem?_map, List.getElem?_range]

/-- Claim C1 (amended): starting from a buffer whose length is ≡ 0 or 1
(mod 4), `start_new_path` always leaves the length ≡ 1 (mod 4);
`add_cubic_bezier_curve_to` (hence `add_line_to`) always leaves it
≡ 0 (mod 4); and `add_points_as_corners` leaves it ≡ 0 (mod 4) whenever
at least one corner point is supplied (an empty corner array leaves the
buffer, hence a length ≡ 1 marker, unchanged). -/
theorem C1_path_construction_mod4 (pts : List Pt)
    (hv : pts.length % 4 = 0 ∨ pts.length % 4 = 1) :
    (∀ p, (start_new_path pts p).length % 4 = 1) ∧
    (∀ h1 h2 a r, add_cubic_bezier_curve_to pts h1 h2 a = some r → r.length % 4 = 0) ∧
    (∀ p r, add_line_to pts p = some r → r.length % 4 = 0) ∧
    (∀ ps r, ps ≠ [] → add_points_as_corners pts ps = some r → r.length % 4 = 0) := by
  refine ⟨fun p => start_new_path_mod pts p, fun h1 h2 a r h => ?_, fun p r h => ?_, ?_⟩
  · rw [add_cubic_length pts h1 h2 a r h]
    split <;> omega
  · rw [add_cubic_length pts _ _ _ r h]
    split <;> omega
  · intro ps r hps h
    rw [add_points_as_corners_length pts ps r hps h]
    split <;> omega

/-- Claim C1, counterexample to the claim as stated: on the valid buffer
`[(0,0,0)]` (length ≡ 1 mod 4), `add_points_as_corners` with an empty
input array succeeds and leaves the length ≡ 1 (mod 4), not ≡ 0. -/
theorem C1_counterexample :
    ([((0 : ℚ), (0 : ℚ), (0 : ℚ))] : List Pt).length % 4 = 1 ∧
    add_points_as_corners [((0 : ℚ), (0 : ℚ), (0 : ℚ))] [] =
      some [((0 : ℚ), (0 : ℚ), (0 : ℚ))] ∧
    ¬ (([((0 : ℚ), (0 : ℚ), (0 : ℚ))] : List Pt).length % 4 = 0) := by
  refine ⟨by decide, by rfl, by decide⟩

/-- Claim C1, witness: the amended theorem applied to the concrete valid
buffer `[(0,0,0)]`. -/
theorem C1_witness :
    (([((0 : ℚ), (0 : ℚ), (0 : ℚ))] : List Pt).length % 4 = 0 ∨
      ([((0 : ℚ), (0 : ℚ), (0 : ℚ))] : List Pt).length % 4 = 1) ∧
    (start_new_path [((0 : ℚ), (0 : ℚ), (0 : ℚ))] ((1 : ℚ), (0 : ℚ), (0 : ℚ))).length % 4 = 1 :=
  ⟨Or.inr (by decide),
    (C1_path_construction_mod4 [((0 : ℚ), (0 : ℚ), (0 : ℚ))] (Or.inr (by decide))).1
      ((1 : ℚ), (0 : ℚ), (0 : ℚ))⟩

end LengthInvariant

section StartNewPath

/-- Claim C9 (amended): when the buffer length `n` is not a multiple of 4,
`start_new_path(p)` pads by repeating the start anchor of the trailing
(incomplete) curve — the buffer element at index `4 * (n // 4)`, which is
`get_start_anchors()[-1]` — exactly `4 - n % 4` times, then appends `p`,
leaving the length ≡ 1 (mod 4) with `p` as the last element; when `n` is
a multiple of 4, only `p` is appended. -/
theorem C9_start_new_path_padding (pts : List Pt) (p : Pt) :
    (pts.length % 4 = 0 → start_new_path pts p = pts ++ [p]) ∧
    (pts.length % 4 ≠ 0 →
      start_new_path pts p =
        pts ++ List.replicate (4 - pts.length % 4) (pts.getD (4 * (pts.length / 4)) default)
          ++ [p] ∧
      (start_new_path pts p).length % 4 = 1 ∧
      (start_new_path pts p).getLast? = some p) := by
  constructor
  · intro h0
    unfold start_new_path
    simp [h0]
  · intro hne
    refine ⟨?_, start_new_path_mod pts p, ?_⟩
    · unfold start_new_path
      rw [if_pos hne, get_start_anchors_getLastD pts hne]
    · unfold start_new_path
      rw [if_pos hne]
      exact List.getLast?_concat _

/-- Claim C9, counterexample to the claim as stated: `c9pts` is a single
subpath (per `get_subpaths`) whose start anchor is `(0,0,0)`, yet
`start_new_path` pads with `(3,0,0)` — the trailing curve's start
anchor — so the result is not the buffer padded with the current
subpath's start anchor. -/
theorem C9_counterexample :
    get_subpaths c9pts = [c9pts] ∧
    ((get_subpaths c9pts).headD []).headD default = ((0 : ℚ), (0 : ℚ), (0 : ℚ)) ∧
    start_new_path c9pts c9p =
      c9pts ++ [((3 : ℚ), (0 : ℚ), (0 : ℚ)), ((3 : ℚ), (0 : ℚ), (0 : ℚ)), c9p] ∧
    start_new_path c9pts c9p ≠
      c9pts ++ [((0 : ℚ), (0 : ℚ), (0 : ℚ)), ((0 : ℚ), (0 : ℚ), (0 : ℚ)), c9p] := by
  refine ⟨by decide, by decide, by decide, by decide⟩

/-- Claim C9, witness: the amended theorem applied to the concrete buffer
`c9pts` (length 6 ≡ 2 mod 4). -/
theorem C9_witness :
    c9pts.length % 4 ≠ 0 ∧
    start_new_path c9pts c9p =
      c9pts ++ List.replicate (4 - c9pts.length % 4)
        (c9pts.getD (4 * (c9pts.length / 4)) default) ++ [c9p] :=
  ⟨by decide, ((C9_start_new_path_padding c9pts c9p).2 (by decide)).1⟩

end StartNewPath

section Proportions

/-- Claim C6: for every `alpha` with `alpha < 0` or `alpha > 1`,
`point_from_proportion` fails immediately with the invalid-argument
error — before the buffer, the curves or any length is looked at (the
result is the same for every `norm` and every buffer).  The source
method never writes `self.points`, so the embedding is a pure query and
the buffer is untouched on this error path. -/
theorem C6_alpha_out_of_range (α : ℚ) (h : α < 0 ∨ α > 1) (norm : Pt → ℚ) (pts : List Pt) :
    point_from_proportion norm pts α = .error .alphaOutOfRange := by
  unfold point_from_proportion
  rw [if_pos h]

/-- Claim C6, witness: `alpha = 2` on a one-curve buffer. -/
theorem C6_witness :
    ((2 : ℚ) < 0 ∨ (2 : ℚ) > 1) ∧
    point_from_proportion (fun _ => 1)
      [((0 : ℚ), (0 : ℚ), (0 : ℚ)), ((1 : ℚ), (0 : ℚ), (0 : ℚ)),
       ((2 : ℚ), (0 : ℚ), (0 : ℚ)), ((3 : ℚ), (0 : ℚ), (0 : ℚ))] 2 =
      .error .alphaOutOfRange :=
  ⟨Or.inr (by norm_num), C6_alpha_out_of_range 2 (Or.inr (by norm_num)) (fun _ => 1) _⟩

/-- Claim C10: on every non-empty buffer, `point_from_proportion(1)`
returns exactly the last buffer element, for every choice of the
floating-point norm — the `alpha == 1` branch returns before any curve
evaluation or arc-length accumulation happens, so the endpoint is exact,
not a sampling approximation. -/
theorem C10_alpha_one_exact (pts : List Pt) (h : pts ≠ []) (norm : Pt → ℚ) :
    point_from_proportion norm pts 1 = .ok (pts.getLastD default) := by
  unfold point_from_proportion
  rw [if_neg (by norm_num), if_neg h, if_pos rfl]

/-- Claim C10, witness: a concrete two-point buffer and a concrete norm. -/
theorem C10_witness :
    ([((0 : ℚ), (0 : ℚ), (0 : ℚ)), ((7 : ℚ), (0 : ℚ), (0 : ℚ))] : List Pt) ≠ [] ∧
    point_from_proportion (fun _ => 1)
      [((0 : ℚ), (0 : ℚ), (0 : ℚ)), ((7 : ℚ), (0 : ℚ), (0 : ℚ))] 1 =
      .ok (([((0 : ℚ), (0 : ℚ), (0 : ℚ)), ((7 : ℚ), (0 : ℚ), (0 : ℚ))] : List Pt).getLastD
        default) :=
  ⟨by decide, C10_alpha_one_exact _ (by decide) (fun _ => 1)⟩

theorem proportion_loop_none_iff (findT : List Pt → Pt → List ℚ) (q : Pt) :
    ∀ (pairs : List (List Pt × ℚ)) (t : ℚ),
      proportion_from_point_loop findT q pairs t = none ↔
        ∀ p ∈ pairs, findT p.1 q = [] := by
  intro pairs
  induction pairs with
  | nil => intro t; simp [proportion_from_point_loop]
  | cons hd tl ih =>
    intro t
    obtain ⟨c, len⟩ := hd
    by_cases hne : findT c q ≠ []
    · simp [proportion_from_point_loop, hne]
    · push_neg at hne
      simp [proportion_from_point_loop, hne, ih]

theorem proportion_loop_first_hit (findT : List Pt → Pt → List ℚ) (q : Pt) :
    ∀ (pairs : List (List Pt × ℚ)) (t : ℚ) (n : ℕ), n < pairs.length →
      (∀ m, m < n → findT (pairs.getD m default).1 q = []) →
      findT (pairs.getD n default).1 q ≠ [] →
      proportion_from_point_loop findT q pairs t =
        some (t + ((List.range n).map (fun m => (pairs.getD m default).2)).sum +
          (pairs.getD n default).2 * listMax (findT (pairs.getD n default).1 q)) := by
  intro pairs
  induction pairs with
  | nil => intro t n hn; exact absurd hn (by simp)
  | cons hd tl ih =>
    intro t n hn hbefore hhit
    obtain ⟨c, len⟩ := hd
    cases n with
    | zero =>
      simp only [List.getD_cons_zero] at hhit
      simp [proportion_from_point_loop, hhit]
    | succ n' =>
      have h0 : findT c q = [] := by
        have := hbefore 0 (Nat.succ_pos n')
        simpa using this
      have hrec := ih (t + len) n' (by simpa using hn)
        (fun m hm => by
          have := hbefore (m + 1) (by omega)
          simpa using this)
        (by simpa using hhit)
      simp only [proportion_from_point_loop, h0]
      rw [if_neg (by simp), hrec]
      have hsum : ((List.range (n' + 1)).map
            (fun m => (((c, len) :: tl).getD m default).2)).sum =
          len + ((List.range n').map (fun m => (tl.getD m default).2)).sum := by
        rw [List.range_succ_eq_map]
        simp [List.map_map, Function.comp_def]
      rw [hsum]
      rw [List.getD_cons_succ]
      congr 1
      ring

theorem curve_pairs_length (norm : Pt → ℚ) (pts : List Pt) :
    (get_curve_functions_with_lengths norm pts).length = get_num_curves pts := by
  simp [get_curve_functions_with_lengths]

theorem curve_pairs_getD (norm : Pt → ℚ) (pts : List Pt) (n : ℕ)
    (hn : n < get_num_curves pts) :
    (get_curve_functions_with_lengths norm pts).getD n default =
      (get_nth_curve_points pts n, get_nth_curve_length norm pts n) := by
  unfold get_curve_functions_with_lengths
  rw [List.getD_eq_getElem?_getD]
  simp [List.getElem?_map, List.getElem?_range, hn]

theorem curve_pairs_mem (norm : Pt → ℚ) (pts : List Pt) (p : List Pt × ℚ)
    (hp : p ∈ get_curve_functions_with_lengths norm pts) :
    ∃ n, n < get_num_curves pts ∧
      p = (get_nth_curve_points pts n, get_nth_curve_length norm pts n) := by
  unfold get_curve_functions_with_lengths at hp
  obtain ⟨n, hn, rfl⟩ := List.mem_map.mp hp
  exact ⟨n, List.mem_range.mp hn, rfl⟩

/-- Claim C7: for every non-empty path and every query point,
`proportion_from_point` scans curves in index order; it fails with the
dedicated point-not-on-path error exactly when every curve's root list
is empty, and when `n` is the first curve whose root finder returns at
least one parameter, it takes the maximum root `r` and returns
`(sum of approximate lengths of curves before n + length(n) * r)`
divided by the total arc length (stated for a non-zero total length,
since the source divides floating-point numbers). -/
theorem C7_proportion_from_point (norm : Pt → ℚ) (findT : List Pt → Pt → List ℚ)
    (pts : List Pt) (q : Pt) (hne : pts ≠ []) :
    (proportion_from_point norm findT pts q = .error .pointNotOnPath ↔
      ∀ n, n < get_num_curves pts → findT (get_nth_curve_points pts n) q = []) ∧
    (∀ n, n < get_num_curves pts →
      (∀ m, m < n → findT (get_nth_curve_points pts m) q = []) →
      findT (get_nth_curve_points pts n) q ≠ [] →
      get_arc_length norm pts ≠ 0 →
      proportion_from_point norm findT pts q =
        .ok ((((List.range n).map (fun m => get_nth_curve_length norm pts m)).sum +
            get_nth_curve_length norm pts n *
              listMax (findT (get_nth_curve_points pts n) q)) /
          get_arc_length norm pts)) := by
  constructor
  · unfold proportion_from_point
    rw [if_neg hne]
    cases hl : proportion_from_point_loop findT q
        (get_curve_functions_with_lengths norm pts) 0 with
    | none =>
      simp only
      constructor
      · intro _ n hn
        have hall := (proportion_loop_none_iff findT q _ 0).mp hl
        have hmem : (get_nth_curve_points pts n, get_nth_curve_length norm pts n) ∈
            get_curve_functions_with_lengths norm pts := by
          unfold get_curve_functions_with_lengths
          exact List.mem_map.mpr ⟨n, List.mem_range.mpr hn, rfl⟩
        exact hall _ hmem
      · intro _
        trivial
    | some t =>
      simp only
      constructor
      · intro h
        exact absurd h (by simp)
      · intro hall
        have : proportion_from_point_loop findT q
            (get_curve_functions_with_lengths norm pts) 0 = none := by
          refine (proportion_loop_none_iff findT q _ 0).mpr ?_
          intro p hp
          obtain ⟨n, hn, rfl⟩ := curve_pairs_mem norm pts p hp
          exact hall n hn
        rw [hl] at this
        exact absurd this (by simp)
  · intro n hn hbef hhit htot
    unfold proportion_from_point
    rw [if_neg hne]
    have hlen : n < (get_curve_functions_with_lengths norm pts).length := by
      rw [curve_pairs_length]; exact hn
    have h1 := proportion_loop_first_hit findT q
      (get_curve_functions_with_lengths norm pts) 0 n hlen
      (fun m hm => by
        rw [curve_pairs_getD norm pts m (lt_trans hm hn)]
        exact hbef m hm)
      (by rw [curve_pairs_getD norm pts n hn]; exact hhit)
    rw [curve_pairs_getD norm pts n hn] at h1
    have hmapeq : (List.range n).map
        (fun m => ((get_curve_functions_with_lengths norm pts).getD m default).2) =
        (List.range n).map (fun m => get_nth_curve_length norm pts m) :=
      List.map_congr_left (fun m hm => by
        rw [curve_pairs_getD norm pts m (lt_trans (List.mem_range.mp hm) hn)])
    rw [hmapeq] at h1
    rw [h1]
    simp only
    congr 2
    ring

/-- Claim C7, witness: a one-curve buffer with a root finder that always
returns the single root 1/2 and the constant-1 norm, hit at curve 0. -/
theorem C7_witness :
    (curve0123 ≠ []) ∧
    proportion_from_point (fun _ => 1) (fun _ _ => [1 / 2]) curve0123
        ((0 : ℚ), (0 : ℚ), (0 : ℚ)) =
      .ok ((((List.range 0).map
            (fun m => get_nth_curve_length (fun _ => 1) curve0123 m)).sum +
          get_nth_curve_length (fun _ => 1) curve0123 0 *
            listMax ((fun (_ : List Pt) (_ : Pt) => [(1 : ℚ) / 2]) curve0123
              ((0 : ℚ), (0 : ℚ), (0 : ℚ)))) /
        get_arc_length (fun _ => 1) curve0123) :=
  ⟨by decide,
    (C7_proportion_from_point (fun _ => 1) (fun _ _ => [1 / 2]) curve0123
        ((0 : ℚ), (0 : ℚ), (0 : ℚ)) (by decide)).2 0 (by decide)
      (fun m hm => absurd hm (by omega)) (by simp) (by decide)⟩

end Proportions

section PartialExtraction

/-- Claim C3 (amended): `pointwise_become_partial(source, a, b)` with
`a ≤ 0` and `b ≥ 1` sets this path's points element-for-element equal to
the source's points; and when the source has zero curves and the
full-window short-circuit does not apply, the call is a no-op leaving
this path's points unchanged. -/
theorem C3_partial_extraction_identity (selfPts srcPts : List Pt) (a b : ℚ) :
    (a ≤ 0 → 1 ≤ b → pointwise_become_partial_points selfPts srcPts a b = srcPts) ∧
    (get_num_curves srcPts = 0 → ¬ (a ≤ 0 ∧ 1 ≤ b) →
      pointwise_become_partial_points selfPts srcPts a b = selfPts) := by
  constructor
  · intro h1 h2
    unfold pointwise_become_partial_points
    rw [if_pos ⟨h1, h2⟩]
  · intro h0 hno
    unfold pointwise_become_partial_points
    rw [if_neg hno, if_pos h0]

/-- Claim C3, counterexample to the claim as stated: a zero-curve source
(a single point) with `a = 0, b = 1` is NOT a no-op — the short-circuit
copy fires first and overwrites this path's single point with the
source's. -/
theorem C3_counterexample :
    get_num_curves [((2 : ℚ), (0 : ℚ), (0 : ℚ))] = 0 ∧
    pointwise_become_partial_points
      [((1 : ℚ), (0 : ℚ), (0 : ℚ))] [((2 : ℚ), (0 : ℚ), (0 : ℚ))] 0 1 =
      [((2 : ℚ), (0 : ℚ), (0 : ℚ))] ∧
    pointwise_become_partial_points
      [((1 : ℚ), (0 : ℚ), (0 : ℚ))] [((2 : ℚ), (0 : ℚ), (0 : ℚ))] 0 1 ≠
      [((1 : ℚ), (0 : ℚ), (0 : ℚ))] := by
  refine ⟨by decide, by decide, by decide⟩

/-- Claim C3, witness: the full-window copy on a concrete one-curve
source, and the no-op on a concrete zero-curve source with `b < 1`. -/
theorem C3_witness :
    ((0 : ℚ) ≤ 0 ∧ (1 : ℚ) ≤ 1) ∧
    pointwise_become_partial_points [] curve0123 0 1 = curve0123 ∧
    pointwise_become_partial_points
      [((1 : ℚ), (0 : ℚ), (0 : ℚ))] [((2 : ℚ), (0 : ℚ), (0 : ℚ))] 0 (1 / 2) =
      [((1 : ℚ), (0 : ℚ), (0 : ℚ))] :=
  ⟨⟨le_refl 0, le_refl 1⟩,
    (C3_partial_extraction_identity [] curve0123 0 1).1 (le_refl 0) (le_refl 1),
    (C3_partial_extraction_identity
      [((1 : ℚ), (0 : ℚ), (0 : ℚ))] [((2 : ℚ), (0 : ℚ), (0 : ℚ))] 0 (1 / 2)).2
      (by decide) (by norm_num)⟩

end PartialExtraction

section DashCount

theorem open_dash_correction_length (dashLen : ℚ) (ds de : List ℚ) :
    (open_dash_correction dashLen ds de).1.length ≤ ds.length + 1 := by
  unfold open_dash_correction
  split
  · simp only [List.length_dropLast]; omega
  · split
    · split
      · simp only [List.length_append, List.length_cons, List.length_nil]; omega
      · simp only [List.length_append, List.length_dropLast, List.length_cons,
          List.length_nil]
        omega
    · split
      · exact Nat.le_succ ds.length
      · exact Nat.le_succ ds.length

theorem dashed_windows_closed_length (n : ℕ) (r off : ℚ) :
    (dashed_vmobject_windows true n r off).1.length = n := by
  unfold dashed_vmobject_windows
  simp

theorem dashed_windows_open_length (n : ℕ) (r off : ℚ) :
    (dashed_vmobject_windows false n r off).1.length ≤ n + 1 := by
  unfold dashed_vmobject_windows
  simp only [Bool.false_eq_true, if_false]
  refine le_trans (open_dash_correction_length _ _ _) ?_
  simp

/-- Claim C2 (amended): for every `num_dashes = k > 0`, every ratio and
every offset, `DashedVMobject` yields exactly `k` dash sub-paths when
the source path is closed, and at most `k + 1` when it is open — one
more than `k` when the last dash wraps past the end and is split into a
tail piece plus a new piece at proportion 0, and fewer when a fully
out-of-range last dash is discarded. -/
theorem C2_dash_count_bound (pts : List Pt) (n : ℕ) (r off : ℚ) (hn : 0 < n) :
    (is_closed pts = true → dashed_vmobject_dash_count pts n r off = n) ∧
    (is_closed pts = false → dashed_vmobject_dash_count pts n r off ≤ n + 1) := by
  constructor
  · intro hc
    unfold dashed_vmobject_dash_count
    rw [if_neg (by omega), hc]
    exact dashed_windows_closed_length n r off
  · intro hc
    unfold dashed_vmobject_dash_count
    rw [if_neg (by omega), hc]
    exact dashed_windows_open_length n r off

/-- Claim C2, counterexample to the claim as stated: on a concrete open
path, `num_dashes = 2`, `dashed_ratio = 4/5`, `dash_offset = 1/2`
produce 3 dash sub-paths — more than `k = 2` — because the wrapped last
dash is split in two. -/
theorem C2_counterexample :
    is_closed openSeg = false ∧
    dashed_vmobject_dash_count openSeg 2 (4 / 5) (1 / 2) = 3 ∧
    ¬ dashed_vmobject_dash_count openSeg 2 (4 / 5) (1 / 2) ≤ 2 := by
  refine ⟨by decide, by decide, by decide⟩

/-- Claim C2, witness: the amended theorem at `k = 2` on a concrete
closed curve (exactly 2 dashes) and on a concrete open segment (at most
3 dashes). -/
theorem C2_witness :
    (0 < 2) ∧
    dashed_vmobject_dash_count closedCurve 2 (1 / 2) 0 = 2 ∧
    dashed_vmobject_dash_count openSeg 2 (1 / 2) 0 ≤ 3 :=
  ⟨by decide,
    (C2_dash_count_bound closedCurve 2 (1 / 2) 0 (by decide)).1 (by decide),
    (C2_dash_count_bound openSeg 2 (1 / 2) 0 (by decide)).2 (by decide)⟩

end DashCount

section InsertCurves

theorem partial_bezier_points_length (c : List Pt) (a b : ℚ) :
    (partial_bezier_points c a b).length = 4 := by
  unfold partial_bezier_points de_casteljau_split
  split
  · simp
  · rfl

theorem subdivide_bezier_length (c : List Pt) (f : ℕ) :
    (subdivide_bezier c f).length = f := by
  simp [subdivide_bezier]

theorem subdivide_bezier_mem_length (c : List Pt) (f : ℕ) (l : List Pt)
    (hl : l ∈ subdivide_bezier c f) : l.length = 4 := by
  unfold subdivide_bezier at hl
  obtain ⟨j, _, rfl⟩ := List.mem_map.mp hl
  exact partial_bezier_points_length _ _ _

theorem telescope_range_sum (f : ℕ → ℕ) (hf : Monotone f) (k : ℕ) :
    ((List.range k).map (fun i => f (i + 1) - f i)).sum = f k - f 0 := by
  induction k with
  | zero => simp
  | succ k ih =>
    rw [List.range_succ, List.map_append, List.sum_append, ih]
    have h1 : f 0 ≤ f k := hf (Nat.zero_le k)
    have h2 : f k ≤ f (k + 1) := hf (Nat.le_succ k)
    simp
    omega

theorem bezier_remap_length (tuples : List (List Pt)) (m : ℕ)
    (hk : tuples.length ≠ 0) : (bezier_remap tuples m).length = m := by
  unfold bezier_remap
  rw [if_neg hk, List.length_flatMap]
  have hmap : (List.range tuples.length).map
      (List.length ∘ fun i => subdivide_bezier (tuples.getD i [])
        ((i + 1) * m / tuples.length - i * m / tuples.length)) =
      (List.range tuples.length).map
        (fun i => (i + 1) * m / tuples.length - i * m / tuples.length) :=
    List.map_congr_left (fun i _ => by
      simp [Function.comp_def, subdivide_bezier_length])
  rw [hmap]
  have hmono : Monotone (fun i => i * m / tuples.length) :=
    fun a b hab => Nat.div_le_div_right (Nat.mul_le_mul_right m hab)
  rw [telescope_range_sum (fun i => i * m / tuples.length) hmono tuples.length]
  simp [Nat.mul_div_cancel_left m (Nat.pos_of_ne_zero hk)]

theorem bezier_remap_mem_length (tuples : List (List Pt)) (m : ℕ) (l : List Pt)
    (hl : l ∈ bezier_remap tuples m) : l.length = 4 := by
  unfold bezier_remap at hl
  by_cases hk : tuples.length = 0
  · rw [if_pos hk] at hl
    exact absurd hl (by simp)
  · rw [if_neg hk] at hl
    obtain ⟨i, _, hmem⟩ := List.mem_flatMap.mp hl
    exact subdivide_bezier_mem_length _ _ _ hmem

theorem tuples_from_points_length (pts : List Pt) :
    (get_cubic_bezier_tuples_from_points pts).length = pts.length / 4 := by
  simp [get_cubic_bezier_tuples_from_points]

theorem flatten_length_of_fours (L : List (List Pt)) (h : ∀ l ∈ L, l.length = 4) :
    L.flatten.length = 4 * L.length := by
  rw [List.length_flatten]
  have : L.map List.length = L.map (fun _ => 4) := List.map_congr_left h
  rw [this, List.map_const', List.sum_replicate, smul_eq_mul, Nat.mul_comm]

theorem insert_to_point_list_length (n : ℕ) (pts : List Pt) (h4 : 4 ≤ pts.length) :
    (insert_n_curves_to_point_list n pts).length = 4 * (pts.length / 4 + n) := by
  unfold insert_n_curves_to_point_list
  rw [if_neg (by omega)]
  have hk : (get_cubic_bezier_tuples_from_points pts).length ≠ 0 := by
    rw [tuples_from_points_length]
    omega
  rw [flatten_length_of_fours _ (fun l hl => bezier_remap_mem_length _ _ _ hl),
    bezier_remap_length _ _ hk, tuples_from_points_length]

/-- Claim C4 (amended): for every points buffer that contains at least
one full curve (length ≥ 4) or consists of exactly one point,
`insert_n_curves(n)` leaves the path with exactly its previous
`get_num_curves()` plus `n` curves; the degenerate single-point buffer
is rebuilt as the point replicated `4n` times (forming the `n` curves)
with the marker point re-appended, instead of subdividing. -/
theorem C4_insert_count_exact (pts : List Pt) (n : ℕ)
    (h : pts.length = 1 ∨ 4 ≤ pts.length) :
    get_num_curves (insert_n_curves pts n) = get_num_curves pts + n ∧
    (∀ p : Pt, insert_n_curves [p] n = List.replicate (4 * n) p ++ [p]) := by
  have hsingle : ∀ p : Pt, insert_n_curves [p] n = List.replicate (4 * n) p ++ [p] := by
    intro p
    unfold insert_n_curves insert_n_curves_to_point_list
    rw [if_pos (by simp [has_new_path_started])]
    rw [if_pos (by simp)]
    rfl
  refine ⟨?_, hsingle⟩
  rcases h with h1 | h4
  · obtain ⟨p, rfl⟩ := List.length_eq_one.mp h1
    rw [hsingle p]
    unfold get_num_curves
    simp only [List.length_append, List.length_replicate, List.length_cons,
      List.length_nil, List.length_singleton]
    omega
  · unfold insert_n_curves get_num_curves
    by_cases hm : has_new_path_started pts
    · rw [if_pos hm, List.length_append, insert_to_point_list_length n pts h4]
      simp only [List.length_cons, List.length_nil]
      omega
    · rw [if_neg hm, insert_to_point_list_length n pts h4]
      omega

/-- Claim C4, counterexample to the claim as stated: on the empty buffer
with `n = 1` there is no curve to split, so the rebuilt path has 0
curves, not `0 + 1` (the released library's `bezier_remap` indexes into
an empty array on this input). -/
theorem C4_counterexample :
    insert_n_curves [] 1 = [] ∧
    get_num_curves (insert_n_curves [] 1) ≠ get_num_curves [] + 1 := by
  refine ⟨rfl, by decide⟩

/-- Claim C4, witness: the amended theorem on a concrete one-curve
buffer with `n = 2`, and the single-point clause at a concrete point. -/
theorem C4_witness :
    (curve0123.length = 1 ∨ 4 ≤ curve0123.length) ∧
    get_num_curves (insert_n_curves curve0123 2) = get_num_curves curve0123 + 2 ∧
    insert_n_curves [((9 : ℚ), (0 : ℚ), (0 : ℚ))] 2 =
      List.replicate 8 (((9 : ℚ), (0 : ℚ), (0 : ℚ)) : Pt) ++ [((9 : ℚ), (0 : ℚ), (0 : ℚ))] :=
  ⟨Or.inr (by decide),
    (C4_insert_count_exact curve0123 2 (Or.inr (by decide))).1,
    (C4_insert_count_exact curve0123 2 (Or.inr (by decide))).2 ((9 : ℚ), (0 : ℚ), (0 : ℚ))⟩

end InsertCurves

section Subpaths

theorem sliceL_length (pts : List Pt) (i j : ℕ) (hij : i ≤ j) (hj : j ≤ pts.length) :
    (sliceL pts i j).length = j - i := by
  simp only [sliceL, List.length_take, List.length_drop]
  omega

theorem subpath_zip_keepall (pts : List Pt) :
    ∀ (cuts : List ℕ) (c : ℕ), List.Chain (· < ·) c cuts →
      (∀ x ∈ c :: cuts, x % 4 = 0) →
      ((c :: cuts).zip cuts).filterMap
        (fun ii => if 4 ≤ ii.2 - ii.1 then some (sliceL pts ii.1 ii.2) else none) =
      ((c :: cuts).zip cuts).map (fun ii => sliceL pts ii.1 ii.2) := by
  intro cuts
  induction cuts with
  | nil => intro c _ _; rfl
  | cons c1 rest ih =>
    intro c hchain hmod
    have hc1 : c < c1 := (List.chain_cons.mp hchain).1
    have hcm : c % 4 = 0 := hmod c (by simp)
    have hc1m : c1 % 4 = 0 := hmod c1 (by simp)
    have hkeep : (fun ii : ℕ × ℕ =>
        if 4 ≤ ii.2 - ii.1 then some (sliceL pts ii.1 ii.2) else none) (c, c1) =
        some (sliceL pts c c1) := by
      have hge : 4 ≤ c1 - c := by omega
      simp [hge]
    simp only [List.zip_cons_cons, List.filterMap_cons, hkeep, List.map_cons]
    congr 1
    exact ih c1 (List.chain_cons.mp hchain).2
      (fun x hx => hmod x (List.mem_cons_of_mem c hx))

theorem subpath_zip_flatten (pts : List Pt) :
    ∀ (cuts : List ℕ) (c : ℕ),
      List.Chain (· ≤ ·) c cuts →
      (∀ x ∈ cuts, x ≤ pts.length) →
      cuts.getLastD c = pts.length →
      (((c :: cuts).zip cuts).map (fun ii => sliceL pts ii.1 ii.2)).flatten =
        pts.drop c := by
  intro cuts
  induction cuts with
  | nil =>
    intro c _ _ hlast
    rw [List.getLastD_nil] at hlast
    subst hlast
    simp [List.drop_length]
  | cons c1 rest ih =>
    intro c hchain hbound hlast
    have hle : c ≤ c1 := (List.chain_cons.mp hchain).1
    have hrec := ih c1 (List.chain_cons.mp hchain).2
      (fun x hx => hbound x (List.mem_cons_of_mem c1 hx))
      (by rw [List.getLastD_cons] at hlast; exact hlast)
    simp only [List.zip_cons_cons, List.map_cons, List.flatten_cons, hrec]
    have hdrop : pts.drop c1 = (pts.drop c).drop (c1 - c) := by
      rw [List.drop_drop]
      congr 1
      omega
    have hslice : sliceL pts c c1 = (pts.drop c).take (c1 - c) := rfl
    rw [hdrop, hslice, List.take_append_drop]

theorem subpath_zip_length_map (pts : List Pt) :
    ∀ (cuts : List ℕ) (c : ℕ),
      List.Chain (· ≤ ·) c cuts →
      (∀ x ∈ cuts, x ≤ pts.length) → c ≤ pts.length →
      (((c :: cuts).zip cuts).map (fun ii => sliceL pts ii.1 ii.2)).map List.length =
        ((c :: cuts).zip cuts).map (fun ii => ii.2 - ii.1) := by
  intro cuts
  induction cuts with
  | nil => intro c _ _ _; rfl
  | cons c1 rest ih =>
    intro c hchain hbound hc
    have hle : c ≤ c1 := (List.chain_cons.mp hchain).1
    have hc1 : c1 ≤ pts.length := hbound c1 (by simp)
    simp only [List.zip_cons_cons, List.map_cons]
    rw [sliceL_length pts c c1 hle hc1]
    congr 1
    exact ih c1 (List.chain_cons.mp hchain).2
      (fun x hx => hbound x (List.mem_cons_of_mem c1 hx)) hc1

theorem subpath_zip_scanl :
    ∀ (cuts : List ℕ) (c : ℕ), List.Chain (· ≤ ·) c cuts →
      List.scanl (· + ·) c (((c :: cuts).zip cuts).map (fun ii => ii.2 - ii.1)) =
        c :: cuts := by
  intro cuts
  induction cuts with
  | nil => intro c _; rfl
  | cons c1 rest ih =>
    intro c hchain
    have hle : c ≤ c1 := (List.chain_cons.mp hchain).1
    simp only [List.zip_cons_cons, List.map_cons, List.scanl_cons]
    have hstep : c + (c1 - c) = c1 := by omega
    rw [hstep]
    simp only [List.cons_append, List.nil_append]
    congr 1
    exact ih c1 (List.chain_cons.mp hchain).2

theorem subpath_zip_pairs_mem (L : ℕ) :
    ∀ (cuts : List ℕ) (c : ℕ), List.Chain (· < ·) c cuts →
      (∀ x ∈ c :: cuts, x % 4 = 0 ∧ x ≤ L) →
      ∀ p ∈ (c :: cuts).zip cuts,
        p.1 < p.2 ∧ p.1 % 4 = 0 ∧ p.2 % 4 = 0 ∧ p.2 ≤ L := by
  intro cuts
  induction cuts with
  | nil => intro c _ _ p hp; exact absurd hp (by simp)
  | cons c1 rest ih =>
    intro c hchain hall p hp
    rw [List.zip_cons_cons] at hp
    rcases List.mem_cons.mp hp with hp1 | hp2
    · subst hp1
      exact ⟨(List.chain_cons.mp hchain).1, (hall c (by simp)).1,
        (hall c1 (by simp)).1, (hall c1 (by simp)).2⟩
    · exact ih c1 (List.chain_cons.mp hchain).2
        (fun x hx => hall x (List.mem_cons_of_mem c hx)) p hp2

theorem split_filtered_mem (filt : ℕ → Bool) (pts : List Pt) (i : ℕ)
    (hi : i ∈ (List.range' 4 ((pts.length - 1) / 4) 4).filter filt) :
    i % 4 = 0 ∧ 4 ≤ i ∧ i < pts.length := by
  obtain ⟨hr, _⟩ := List.mem_filter.mp hi
  obtain ⟨j, hj, rfl⟩ := List.mem_range'.mp hr
  refine ⟨by omega, by omega, by omega⟩

theorem split_indices_pairwise (filt : ℕ → Bool) (pts : List Pt) (h0 : pts ≠ [])
    (hmod : pts.length % 4 = 0) :
    List.Pairwise (· < ·) (subpath_split_indices filt pts) := by
  have hlen : 0 < pts.length := List.length_pos.mpr h0
  have hF : List.Pairwise (· < ·)
      ((List.range' 4 ((pts.length - 1) / 4) 4).filter filt) :=
    List.Pairwise.sublist (List.filter_sublist _)
      (List.pairwise_lt_range' 4 ((pts.length - 1) / 4) 4 (by norm_num))
  unfold subpath_split_indices
  rw [List.pairwise_cons]
  constructor
  · intro x hx
    rcases List.mem_append.mp hx with hxF | hxL
    · have := split_filtered_mem filt pts x hxF
      omega
    · have : x = pts.length := by simpa using hxL
      omega
  · rw [List.pairwise_append]
    refine ⟨hF, by simp, ?_⟩
    intro a ha b hb
    have hb' : b = pts.length := by simpa using hb
    have := split_filtered_mem filt pts a ha
    omega

/-- Claim C8 (amended): for every buffer whose length is a multiple of 4,
`get_subpaths()` partitions the buffer exactly at the multiples of 4
where the anchor ending one curve and the anchor starting the next fail
tolerance equality: the returned slices concatenate back to the whole
buffer, every returned slice contains at least one full curve and has
length ≡ 0 (mod 4) — not ≡ 1 —, the cut positions (the partial sums of
the slice lengths) are exactly the split indices
`[0] + failing boundaries + [length]`, and an interior index is a split
index iff it is a multiple of 4 at which the adjacent anchors fail
`consider_points_equals`. -/
theorem C8_subpaths_partition (pts : List Pt) (hmod : pts.length % 4 = 0) :
    (∀ sp ∈ get_subpaths pts, sp.length % 4 = 0 ∧ 4 ≤ sp.length) ∧
    (get_subpaths pts).flatten = pts ∧
    (pts ≠ [] →
      List.scanl (· + ·) 0 ((get_subpaths pts).map List.length) =
        subpath_split_indices
          (fun n => ! consider_points_equals (pts.getD (n - 1) default) (pts.getD n default))
          pts) ∧
    (∀ i, 0 < i → i < pts.length →
      (i ∈ subpath_split_indices
          (fun n => ! consider_points_equals (pts.getD (n - 1) default) (pts.getD n default))
          pts ↔
        i % 4 = 0 ∧
          consider_points_equals (pts.getD (i - 1) default) (pts.getD i default) = false)) := by
  by_cases hnil : pts = []
  · subst hnil
    refine ⟨by simp [get_subpaths, get_subpaths_from_points, gen_subpaths_from_points,
        subpath_split_indices], ?_, ?_, ?_⟩
    · rfl
    · intro h; exact absurd rfl h
    · intro i h1 h2; simp at h2
  · set filt : ℕ → Bool :=
      fun n => ! consider_points_equals (pts.getD (n - 1) default) (pts.getD n default)
      with hfilt
    set F := (List.range' 4 ((pts.length - 1) / 4) 4).filter filt with hF
    set cuts := F ++ [pts.length] with hcuts
    have hsi : subpath_split_indices filt pts = 0 :: cuts := rfl
    have hPW : List.Pairwise (· < ·) (0 :: cuts) := by
      rw [← hsi]
      exact split_indices_pairwise filt pts hnil hmod
    have hchain : List.Chain (· < ·) 0 cuts := List.chain_iff_pairwise.mpr hPW
    have hchainle : List.Chain (· ≤ ·) 0 cuts :=
      List.Chain.imp (fun a b h => le_of_lt h) hchain
    have hmodall : ∀ x ∈ (0 : ℕ) :: cuts, x % 4 = 0 := by
      intro x hx
      rcases List.mem_cons.mp hx with h | h
      · omega
      · rcases List.mem_append.mp h with hxF | hxL
        · exact (split_filtered_mem filt pts x hxF).1
        · have : x = pts.length := by simpa using hxL
          omega
    have hbound : ∀ x ∈ cuts, x ≤ pts.length := by
      intro x hx
      rcases List.mem_append.mp hx with hxF | hxL
      · exact le_of_lt (split_filtered_mem filt pts x hxF).2.2
      · have : x = pts.length := by simpa using hxL
        omega
    have hlast : cuts.getLastD 0 = pts.length := List.getLastD_concat _ _ _
    have hgen : get_subpaths pts = ((0 :: cuts).zip cuts).filterMap
        (fun ii => if 4 ≤ ii.2 - ii.1 then some (sliceL pts ii.1 ii.2) else none) := rfl
    have hkeep := subpath_zip_keepall pts cuts 0 hchain hmodall
    have hmap : get_subpaths pts =
        ((0 :: cuts).zip cuts).map (fun ii => sliceL pts ii.1 ii.2) := by
      rw [hgen, hkeep]
    refine ⟨?_, ?_, ?_, ?_⟩
    · intro sp hsp
      rw [hmap] at hsp
      obtain ⟨p, hp, rfl⟩ := List.mem_map.mp hsp
      have hps := subpath_zip_pairs_mem pts.length cuts 0 hchain
        (fun x hx => ⟨hmodall x hx, by
          rcases List.mem_cons.mp hx with h | h
          · omega
          · exact hbound x h⟩) p hp
      rw [sliceL_length pts p.1 p.2 (le_of_lt hps.1) hps.2.2.2]
      omega
    · rw [hmap, subpath_zip_flatten pts cuts 0 hchainle hbound hlast]
      rfl
    · intro _
      rw [hmap, subpath_zip_length_map pts cuts 0 hchainle hbound (by omega),
        subpath_zip_scanl cuts 0 hchainle, hsi]
    · intro i h0 hlen
      rw [hsi]
      constructor
      · intro hi
        rcases List.mem_cons.mp hi with h | h
        · omega
        · rcases List.mem_append.mp h with hxF | hxL
          · obtain ⟨hr, hfi⟩ := List.mem_filter.mp hxF
            refine ⟨(split_filtered_mem filt pts i hxF).1, ?_⟩
            rw [hfilt] at hfi
            simpa using hfi
          · have : i = pts.length := by simpa using hxL
            omega
      · intro ⟨him, hcpe⟩
        refine List.mem_cons_of_mem 0 (List.mem_append.mpr (Or.inl ?_))
        refine List.mem_filter.mpr ⟨?_, ?_⟩
        · refine List.mem_range'.mpr ⟨i / 4 - 1, by omega, by omega⟩
        · rw [hfilt]
          show (! consider_points_equals (pts.getD (i - 1) default) (pts.getD i default)) = true
          rw [hcpe]
          rfl

/-- Claim C8, counterexample to the claim as stated: the single-curve
buffer `curve0123` comes back from `get_subpaths()` as one slice of
length 4, which is ≡ 0 (mod 4), not ≡ 1 (mod 4). -/
theorem C8_counterexample :
    get_subpaths curve0123 = [curve0123] ∧
    ((get_subpaths curve0123).headD []).length % 4 = 0 ∧
    ¬ ((get_subpaths curve0123).headD []).length % 4 = 1 := by
  refine ⟨by decide, by decide, by decide⟩

/-- Claim C8, witness: the partition and slice-shape clauses of the
amended theorem applied to the concrete mod-4 buffer `curve0123`. -/
theorem C8_witness :
    curve0123.length % 4 = 0 ∧
    (get_subpaths curve0123).flatten = curve0123 ∧
    (∀ sp ∈ get_subpaths curve0123, sp.length % 4 = 0 ∧ 4 ≤ sp.length) :=
  ⟨by decide, (C8_subpaths_partition curve0123 (by decide)).2.1,
    (C8_subpaths_partition curve0123 (by decide)).1⟩

end Subpaths

section Alignment

theorem get_subpaths_map_form (pts : List Pt) (hnil : pts ≠ []) (hmod : pts.length % 4 = 0) :
    ∃ cuts : List ℕ, List.Chain (· < ·) 0 cuts ∧ (∀ x ∈ (0 : ℕ) :: cuts, x % 4 = 0) ∧
      (∀ x ∈ cuts, x ≤ pts.length) ∧ cuts ≠ [] ∧
      get_subpaths pts = ((0 :: cuts).zip cuts).map (fun ii => sliceL pts ii.1 ii.2) := by
  set filt : ℕ → Bool :=
    fun n => ! consider_points_equals (pts.getD (n - 1) default) (pts.getD n default)
    with hfilt
  set F := (List.range' 4 ((pts.length - 1) / 4) 4).filter filt with hF
  refine ⟨F ++ [pts.length], ?_, ?_, ?_, by simp, ?_⟩
  · exact List.chain_iff_pairwise.mpr (split_indices_pairwise filt pts hnil hmod)
  · intro x hx
    rcases List.mem_cons.mp hx with h | h
    · omega
    · rcases List.mem_append.mp h with hxF | hxL
      · exact (split_filtered_mem filt pts x hxF).1
      · have : x = pts.length := by simpa using hxL
        omega
  · intro x hx
    rcases List.mem_append.mp hx with hxF | hxL
    · exact le_of_lt (split_filtered_mem filt pts x hxF).2.2
    · have : x = pts.length := by simpa using hxL
      omega
  · exact (subpath_zip_keepall pts (F ++ [pts.length]) 0
      (List.chain_iff_pairwise.mpr (split_indices_pairwise filt pts hnil hmod))
      (by
        intro x hx
        rcases List.mem_cons.mp hx with h | h
        · omega
        · rcases List.mem_append.mp h with hxF | hxL
          · exact (split_filtered_mem filt pts x hxF).1
          · have : x = pts.length := by simpa using hxL
            omega))

theorem get_subpaths_shape (pts : List Pt) (hmod : pts.length % 4 = 0) :
    ∀ sp ∈ get_subpaths pts, sp.length % 4 = 0 ∧ 4 ≤ sp.length := by
  by_cases hnil : pts = []
  · subst hnil
    have hempty : get_subpaths ([] : List Pt) = [] := by decide
    intro sp hsp
    rw [hempty] at hsp
    exact absurd hsp (List.not_mem_nil sp)
  · obtain ⟨cuts, hchain, hmodall, hbound, _, hmap⟩ := get_subpaths_map_form pts hnil hmod
    intro sp hsp
    rw [hmap] at hsp
    obtain ⟨p, hp, rfl⟩ := List.mem_map.mp hsp
    have hps := subpath_zip_pairs_mem pts.length cuts 0 hchain
      (fun x hx => ⟨hmodall x hx, by
        rcases List.mem_cons.mp hx with h | h
        · omega
        · exact hbound x h⟩) p hp
    rw [sliceL_length pts p.1 p.2 (le_of_lt hps.1) hps.2.2.2]
    omega

theorem get_subpaths_ne_nil (pts : List Pt) (hnil : pts ≠ []) (hmod : pts.length % 4 = 0) :
    get_subpaths pts ≠ [] := by
  obtain ⟨cuts, _, _, _, hcne, hmap⟩ := get_subpaths_map_form pts hnil hmod
  rw [hmap]
  intro hcontra
  have hlen := congrArg List.length hcontra
  rw [List.length_map, List.length_zip, List.length_cons, List.length_nil] at hlen
  exact hcne (List.length_eq_zero.mp (by omega))

theorem align_points_fixup_spec (pts : List Pt) (c : Pt)
    (h : pts.length % 4 = 0 ∨ pts.length % 4 = 1) :
    (align_points_fixup pts c).length % 4 = 0 ∧ 4 ≤ (align_points_fixup pts c).length := by
  by_cases hnil : pts = []
  · subst hnil
    have : align_points_fixup [] c =
        [c, interpolate c c (1 / 3), interpolate c c (2 / 3), interpolate c c 1] := rfl
    rw [this]
    exact ⟨by simp, by simp⟩
  · have hlen : 0 < pts.length := List.length_pos.mpr hnil
    unfold align_points_fixup
    rw [if_neg hnil]
    by_cases hm : has_new_path_started pts
    · have hm1 : pts.length % 4 = 1 := by
        simpa [has_new_path_started] using hm
      rw [if_pos hm]
      unfold add_line_to add_cubic_bezier_curve_to
      rw [if_neg hnil, if_pos hm]
      simp only [Option.getD_some, List.length_append, List.length_cons, List.length_nil]
      omega
    · have hm1 : ¬ pts.length % 4 = 1 := by
        simpa [has_new_path_started] using hm
      rw [if_neg hm]
      rcases h with h0 | h1
      · constructor
        · exact h0
        · omega
      · exact absurd h1 hm1

theorem trim_useless_tail_shape_fuel :
    ∀ (fuel : ℕ) (path : List Pt), path.length ≤ fuel →
      path.length % 4 = 0 → 4 ≤ path.length →
      (trim_useless_tail path).length % 4 = 0 ∧ 4 ≤ (trim_useless_tail path).length := by
  intro fuel
  induction fuel with
  | zero => intro path hle hmod h4; omega
  | succ f ih =>
    intro path hle hmod h4
    unfold trim_useless_tail
    split
    · rename_i hcond
      refine ih (path.take (path.length - 4)) ?_ ?_ ?_
      · simp only [List.length_take]
        omega
      · simp only [List.length_take]
        omega
      · simp only [List.length_take]
        omega
    · exact ⟨hmod, h4⟩

theorem trim_useless_tail_shape (path : List Pt)
    (hmod : path.length % 4 = 0) (h4 : 4 ≤ path.length) :
    (trim_useless_tail path).length % 4 = 0 ∧ 4 ≤ (trim_useless_tail path).length :=
  trim_useless_tail_shape_fuel path.length path le_rfl hmod h4

theorem get_nth_subpath_shape (spl : List (List Pt))
    (hall : ∀ sp ∈ spl, sp.length % 4 = 0 ∧ 4 ≤ sp.length) (n : ℕ) :
    (get_nth_subpath spl n).length % 4 = 0 ∧ 4 ≤ (get_nth_subpath spl n).length := by
  unfold get_nth_subpath
  split
  · simp
  · rename_i hlt
    push_neg at hlt
    have hmem : spl.getD n [] ∈ spl := by
      rw [List.getD_eq_getElem?_getD, List.getElem?_eq_getElem hlt]
      exact List.getElem_mem hlt
    obtain ⟨hm, hg⟩ := hall _ hmem
    exact trim_useless_tail_shape _ hm hg

theorem align_pair_lengths (spl1 spl2 : List (List Pt))
    (h1 : ∀ sp ∈ spl1, sp.length % 4 = 0 ∧ 4 ≤ sp.length)
    (h2 : ∀ sp ∈ spl2, sp.length % 4 = 0 ∧ 4 ≤ sp.length) (n : ℕ) :
    (insert_n_curves_to_point_list
      (((get_nth_subpath spl2 n).length - (get_nth_subpath spl1 n).length) / 4)
      (get_nth_subpath spl1 n)).length =
    (insert_n_curves_to_point_list
      (((get_nth_subpath spl1 n).length - (get_nth_subpath spl2 n).length) / 4)
      (get_nth_subpath spl2 n)).length := by
  obtain ⟨m1, g1⟩ := get_nth_subpath_shape spl1 h1 n
  obtain ⟨m2, g2⟩ := get_nth_subpath_shape spl2 h2 n
  rw [insert_to_point_list_length _ _ g1, insert_to_point_list_length _ _ g2]
  omega

theorem align_points_lengths_eq (pts1 pts2 : List Pt) (c1 c2 : Pt)
    (h1 : pts1.length % 4 = 0 ∨ pts1.length % 4 = 1)
    (h2 : pts2.length % 4 = 0 ∨ pts2.length % 4 = 1) :
    (align_points pts1 pts2 c1 c2).1.length = (align_points pts1 pts2 c1 c2).2.length := by
  unfold align_points
  split
  · rename_i heq
    simpa [get_num_points] using heq
  · have hf1 := align_points_fixup_spec pts1 c1 h1
    have hf2 := align_points_fixup_spec pts2 c2 h2
    have hs1 := get_subpaths_shape (align_points_fixup pts1 c1) hf1.1
    have hs2 := get_subpaths_shape (align_points_fixup pts2 c2) hf2.1
    simp only [List.length_flatMap]
    refine congrArg List.sum (List.map_congr_left ?_)
    intro n _
    simp only [Function.comp_def]
    exact align_pair_lengths _ _ hs1 hs2 n

theorem align_points_of_eq_len (pts1 pts2 : List Pt) (c d : Pt)
    (h : pts1.length = pts2.length) :
    align_points pts1 pts2 c d = (pts1, pts2) := by
  unfold align_points
  rw [if_pos (by simpa [get_num_points] using h)]

/-- Claim C5: for every pair of valid paths (buffer lengths ≡ 0 or 1 mod
4) and every pair of centers, once `align_points` has run, running it
again on the resulting pair returns both buffers completely unchanged —
in particular their point counts and curve counts are unchanged — for
every choice of centers in the second run, because the first run always
equalizes the point counts and the second run then takes the
equal-point-count early return (only `align_rgbas`, which touches style
arrays and never `points`, runs before that return). -/
theorem C5_align_points_idempotent (pts1 pts2 : List Pt) (c1 c2 : Pt)
    (h1 : pts1.length % 4 = 0 ∨ pts1.length % 4 = 1)
    (h2 : pts2.length % 4 = 0 ∨ pts2.length % 4 = 1) :
    ∀ d1 d2 : Pt,
      align_points (align_points pts1 pts2 c1 c2).1 (align_points pts1 pts2 c1 c2).2 d1 d2 =
        ((align_points pts1 pts2 c1 c2).1, (align_points pts1 pts2 c1 c2).2) :=
  fun d1 d2 =>
    align_points_of_eq_len _ _ d1 d2 (align_points_lengths_eq pts1 pts2 c1 c2 h1 h2)

/-- Claim C5, witness: aligning the one-curve buffer `curve0123` with
the empty buffer, then aligning the results again, is the identity. -/
theorem C5_witness :
    (curve0123.length % 4 = 0 ∨ curve0123.length % 4 = 1) ∧
    (([] : List Pt).length % 4 = 0 ∨ ([] : List Pt).length % 4 = 1) ∧
    align_points
        (align_points curve0123 [] ((0 : ℚ), (0 : ℚ), (0 : ℚ)) ((0 : ℚ), (0 : ℚ), (0 : ℚ))).1
        (align_points curve0123 [] ((0 : ℚ), (0 : ℚ), (0 : ℚ)) ((0 : ℚ), (0 : ℚ), (0 : ℚ))).2
        ((0 : ℚ), (0 : ℚ), (0 : ℚ)) ((0 : ℚ), (0 : ℚ), (0 : ℚ)) =
      ((align_points curve0123 [] ((0 : ℚ), (0 : ℚ), (0 : ℚ)) ((0 : ℚ), (0 : ℚ), (0 : ℚ))).1,
       (align_points curve0123 [] ((0 : ℚ), (0 : ℚ), (0 : ℚ)) ((0 : ℚ), (0 : ℚ), (0 : ℚ))).2) :=
  ⟨Or.inl (by decide), Or.inl (by decide),
    C5_align_points_idempotent curve0123 [] _ _ (Or.inl (by decide)) (Or.inl (by decide)) _ _⟩

end Alignment

end ManimVMobject
